import Mathlib

/-!
Shallow embedding of the rating/ranking engine of `src/utils.js`
(wilsoniumite/wordlebot) and proofs about it.

JavaScript numbers are modelled as exact real numbers (`ℝ`): every
arithmetic operation of the source (`+`, `-`, `*`, `/`, `Math.pow`,
`Math.log`, `Math.exp`, `Math.log10`, `Math.max`, `Math.abs`) is mapped to
the corresponding exact real operation; `Math.pow 10 x` becomes the real
power `(10 : ℝ) ^ x` and `Math.log10` becomes `Real.logb 10`.  Division by
zero follows Lean's `x / 0 = 0` convention; the source never divides by
zero on the paths the theorems below talk about, except where noted in the
individual definitions' comments.  Lists stand for JavaScript arrays, and
`String` for player identifiers.
-/

noncomputable section

namespace Wordlebot

/-- `points(a, b, maxScore)` from `src/utils.js` lines 88-90:
`0.5 + (b - a) / (maxScore - 1) / 2`. -/
def points (a b maxScore : ℝ) : ℝ :=
  0.5 + (b - a) / (maxScore - 1) / 2

/-- `calculateElo(elo0, elo1, sa, k)` from `src/utils.js` lines 80-86.
Returns the pair of updated ratings. -/
def calculateElo (elo0 elo1 sa k : ℝ) : ℝ × ℝ :=
  let eloDiff := elo1 - elo0
  let ea := 1 / (1 + (10 : ℝ) ^ (eloDiff / 400))
  let eb := 1 - ea
  let sb := 1 - sa
  (elo0 + k * (sa - ea), elo1 + k * (sb - eb))

/-- One pairwise in-place update of the rating vector
(`src/utils.js` lines 114-123): read both ratings, apply `calculateElo`,
write both entries back.  `pidx`/`oidx` are the indices of the player and
the opponent in the player list. -/
def applyPair (k maxScore : ℝ) (elos : List ℝ) (pidx oidx : ℕ)
    (score oscore : ℝ) : List ℝ :=
  let sa := points score oscore maxScore
  let r := calculateElo (elos.getD pidx 0) (elos.getD oidx 0) sa k
  (elos.set pidx r.1).set oidx r.2

/-- Inner loop of `calcEloIterated` over a day's entries as opponents
(`src/utils.js` lines 108-124): skip the player themselves, skip opponents
missing from the player list (`indexOf === -1`), otherwise update. -/
def processOpponents (allPlayers : List String) (k maxScore : ℝ)
    (pn : String) (ps : ℝ) (pidx : ℕ) (day : List (String × ℝ))
    (elos : List ℝ) : List ℝ :=
  day.foldl (fun e op =>
    if pn = op.1 then e
    else
      match allPlayers.findIdx? (· == op.1) with
      | none => e
      | some oidx => applyPair k maxScore e pidx oidx ps op.2) elos

/-- Outer loop of `calcEloIterated` over a day's entries as players
(`src/utils.js` lines 104-125): players missing from the player list are
skipped (`indexOf === -1`). -/
def processDay (allPlayers : List String) (k maxScore : ℝ)
    (day : List (String × ℝ)) (elos : List ℝ) : List ℝ :=
  day.foldl (fun e pr =>
    match allPlayers.findIdx? (· == pr.1) with
    | none => e
    | some pidx => processOpponents allPlayers k maxScore pr.1 pr.2 pidx day e)
    elos

/-- `calcEloIterated(scores, allPlayers, k, maxScore)` from
`src/utils.js` lines 92-131: all players start at 1000, each day is
processed with live in-place pairwise updates, and the history of rating
snapshots (initial snapshot included) is returned. -/
def calcEloIterated (scores : List (List (String × ℝ)))
    (allPlayers : List String) (k maxScore : ℝ) : List (List ℝ) :=
  let init : List ℝ := List.replicate allPlayers.length 1000
  (scores.foldl (fun acc day =>
      let e := processDay allPlayers k maxScore day acc.2
      (acc.1 ++ [e], e)) (([init], init) : List (List ℝ) × List ℝ)).1

/-- C6: the pairwise outcome is zero-sum, `points a b m + points b a m = 1`
for all scores and every `maxScore`, and consequently
`points a a m = 0.5`. -/
theorem points_zero_sum (a b maxScore : ℝ) :
    points a b maxScore + points b a maxScore = 1 ∧
      points a a maxScore = 0.5 := by
  constructor
  · unfold points; ring
  · unfold points; ring

/-- C5: a single pairwise Elo update is zero-sum: for every pair of
current ratings, every outcome value `sa` and every K-factor, the change
applied to the first rating exactly negates the change applied to the
second. -/
theorem calculateElo_zero_sum (elo0 elo1 sa k : ℝ) :
    (calculateElo elo0 elo1 sa k).1 - elo0
      = -((calculateElo elo0 elo1 sa k).2 - elo1) := by
  simp only [calculateElo]
  ring

/-! ### The two-player, one-day scenario of the spec (C1) -/

/-- The single day of the spec's end-to-end Iterated-Elo scenario:
Alice scores 3, Bob scores 5. -/
def demoDay : List (String × ℝ) := [("Alice", 3), ("Bob", 5)]

/-- The player universe of the demo scenario. -/
def demoPlayers : List String := ["Alice", "Bob"]

/-- The expected score used by the second (Bob-versus-Alice) update of the
demo run: `1 / (1 + 10 ^ (0.8 / 400))`, with `0.8 / 400 = 1 / 500`. -/
def demoEa : ℝ := 1 / (1 + (10 : ℝ) ^ ((1 : ℝ) / 500))

/-- Full evaluation of the demo run: the engine visits both ordered
pairs, so after the Alice-versus-Bob update produces `(1000.4, 999.6)`
the Bob-versus-Alice update moves the ratings again. -/
lemma demo_run_eval :
    calcEloIterated [demoDay] demoPlayers 2 6 =
      [[1000, 1000], [999.8 + 2 * demoEa, 1000.2 - 2 * demoEa]] := by
  have hAB : (("Alice" : String) = "Bob") = False := eq_false (by decide)
  have hBA : (("Bob" : String) = "Alice") = False := eq_false (by decide)
  simp only [calcEloIterated, demoDay, demoPlayers, List.length_cons,
    List.length_nil, List.foldl_cons, List.foldl_nil, processDay,
    processOpponents]
  norm_num [applyPair, calculateElo, points, List.replicate, demoEa, hAB, hBA,
    List.getD_cons_zero, List.getD_cons_succ, List.set, Real.rpow_zero]
  constructor <;> ring

/-- The second update's expected score exceeds `0.3`:
`10 ^ (1/500) < 7/3`, hence `1 / (1 + 10 ^ (1/500)) > 3/10`. -/
lemma demoEa_gt : 3 / 10 < demoEa := by
  have hpos : (0 : ℝ) < (10 : ℝ) ^ ((1 : ℝ) / 500) :=
    Real.rpow_pos_of_pos (by norm_num) _
  have h1 : (10 : ℝ) ^ ((1 : ℝ) / 500) < (10 : ℝ) ^ ((1 : ℝ) / 3) := by
    rw [Real.rpow_lt_rpow_left_iff (by norm_num : (1 : ℝ) < 10)]
    norm_num
  have hcube : ((10 : ℝ) ^ ((1 : ℝ) / 3)) ^ (3 : ℕ) = 10 := by
    rw [← Real.rpow_natCast ((10 : ℝ) ^ ((1 : ℝ) / 3)) 3,
      ← Real.rpow_mul (by norm_num : (0 : ℝ) ≤ 10)]
    norm_num
  have h2 : (10 : ℝ) ^ ((1 : ℝ) / 3) < 7 / 3 := by
    have hnn : (0 : ℝ) ≤ (10 : ℝ) ^ ((1 : ℝ) / 3) :=
      Real.rpow_nonneg (by norm_num) _
    refine (pow_lt_pow_iff_left₀ hnn (by norm_num) (by norm_num : (3 : ℕ) ≠ 0)).mp ?_
    rw [hcube]
    norm_num
  have h3 : (10 : ℝ) ^ ((1 : ℝ) / 500) < 7 / 3 := h1.trans h2
  have h4 : 1 + (10 : ℝ) ^ ((1 : ℝ) / 500) < 10 / 3 := by linarith
  unfold demoEa
  rw [div_lt_div_iff₀ (by norm_num) (by linarith)]
  linarith

/-- C1 (counterexample): on the spec's two-player demo input the final
snapshot of `calcEloIterated` is NOT `[1000.4, 999.6]` — the engine also
processes the reverse ordered pair (Bob, Alice), which moves the ratings
again. -/
theorem calcEloIterated_demo_ne_spec :
    (calcEloIterated [demoDay] demoPlayers 2 6).getD 1 []
      ≠ [1000.4, 999.6] := by
  rw [demo_run_eval]
  simp only [List.getD_cons_succ, List.getD_cons_zero, ne_eq,
    List.cons.injEq, and_true]
  intro h
  have := demoEa_gt
  obtain ⟨h1, -⟩ := h
  norm_num at h1
  linarith

/-- C1 (amended): the final ratings of the demo run are
`Alice = 999.8 + 2·ea` and `Bob = 1000.2 − 2·ea` with
`ea = 1 / (1 + 10 ^ (0.8/400))` (numerically `Alice ≈ 1000.7977`,
`Bob ≈ 999.2023`): the first ordered pair produces `(1000.4, 999.6)` as
the spec computes, and the reverse ordered pair then applies a second
update. -/
theorem calcEloIterated_demo_final :
    calcEloIterated [demoDay] demoPlayers 2 6 =
      [[1000, 1000], [999.8 + 2 * demoEa, 1000.2 - 2 * demoEa]] :=
  demo_run_eval

/-! ### Conservation of the rating total (C9) -/

lemma findIdx?_spec {α : Type} {l : List α} {p : α → Bool} {i : ℕ}
    (h : l.findIdx? p = some i) : ∃ h' : i < l.length, p l[i] := by
  rw [List.findIdx?_eq_some_iff_findIdx_eq] at h
  obtain ⟨h1, h2⟩ := h
  subst h2
  exact ⟨h1, List.findIdx_getElem⟩

lemma getD_set_ne_wb (l : List ℝ) {i j : ℕ} (h : i ≠ j) (a : ℝ) :
    (l.set i a).getD j 0 = l.getD j 0 := by
  simp [List.getD_eq_getElem?_getD, List.getElem?_set_ne h]

lemma sum_set_eq (l : List ℝ) :
    ∀ i : ℕ, i < l.length → ∀ a : ℝ,
      (l.set i a).sum = l.sum - l.getD i 0 + a := by
  induction l with
  | nil => intro i hi; simp at hi
  | cons x xs ih =>
    intro i hi a
    cases i with
    | zero => simp [List.set]; ring
    | succ n =>
      simp only [List.set, List.sum_cons, List.getD_cons_succ]
      rw [ih n (by simpa using hi) a]; ring

lemma applyPair_length (k maxScore : ℝ) (elos : List ℝ) (pidx oidx : ℕ)
    (score oscore : ℝ) :
    (applyPair k maxScore elos pidx oidx score oscore).length
      = elos.length := by
  simp [applyPair]

/-- A pairwise update leaves the total of the rating vector unchanged
(because `calculateElo` is zero-sum). -/
lemma applyPair_sum (k maxScore : ℝ) (elos : List ℝ) (pidx oidx : ℕ)
    (hp : pidx < elos.length) (ho : oidx < elos.length) (hne : pidx ≠ oidx)
    (score oscore : ℝ) :
    (applyPair k maxScore elos pidx oidx score oscore).sum = elos.sum := by
  simp only [applyPair]
  rw [sum_set_eq _ oidx (by simpa using ho), sum_set_eq _ pidx hp,
      getD_set_ne_wb _ hne]
  simp only [calculateElo]
  ring

lemma foldl_invariant {α β : Type} (P : β → Prop) (f : β → α → β)
    (l : List α) (b : β) (hb : P b)
    (hf : ∀ c a, a ∈ l → P c → P (f c a)) : P (l.foldl f b) := by
  induction l generalizing b with
  | nil => exact hb
  | cons x xs ih =>
    exact ih (f b x) (hf b x (by simp) hb)
      (fun c a ha hPc => hf c a (by simp [ha]) hPc)

lemma processOpponents_invariant (allPlayers : List String) (k maxScore : ℝ)
    (pn : String) (ps : ℝ) (pidx : ℕ) (day : List (String × ℝ))
    (elos : List ℝ)
    (hpn : ∃ h : pidx < allPlayers.length, allPlayers[pidx] = pn)
    (hinv : elos.length = allPlayers.length) :
    (processOpponents allPlayers k maxScore pn ps pidx day elos).length
        = allPlayers.length ∧
      (processOpponents allPlayers k maxScore pn ps pidx day elos).sum
        = elos.sum := by
  unfold processOpponents
  refine foldl_invariant
    (fun e => e.length = allPlayers.length ∧ e.sum = elos.sum) _ day elos
    ⟨hinv, rfl⟩ ?_
  intro e op _ hP
  obtain ⟨hlen, hsum⟩ := hP
  by_cases hne : pn = op.1
  · simp [hne, hlen, hsum]
  · simp only [if_neg hne]
    cases hfi : allPlayers.findIdx? (· == op.1) with
    | none => exact ⟨hlen, hsum⟩
    | some oidx =>
      obtain ⟨holt, hoeq⟩ := findIdx?_spec hfi
      simp only [beq_iff_eq] at hoeq
      obtain ⟨hplt, hpeq⟩ := hpn
      have hij : pidx ≠ oidx := by
        intro hcon
        subst hcon
        exact hne (hpeq.symm.trans hoeq)
      constructor
      · rw [applyPair_length, hlen]
      · rw [applyPair_sum k maxScore e pidx oidx (by omega) (by omega) hij,
          hsum]

lemma processDay_invariant (allPlayers : List String) (k maxScore : ℝ)
    (day : List (String × ℝ)) (elos : List ℝ)
    (hinv : elos.length = allPlayers.length) :
    (processDay allPlayers k maxScore day elos).length = allPlayers.length ∧
      (processDay allPlayers k maxScore day elos).sum = elos.sum := by
  unfold processDay
  refine foldl_invariant
    (fun e => e.length = allPlayers.length ∧ e.sum = elos.sum) _ day elos
    ⟨hinv, rfl⟩ ?_
  intro e pr _ hP
  obtain ⟨hlen, hsum⟩ := hP
  cases hfi : allPlayers.findIdx? (· == pr.1) with
  | none => exact ⟨hlen, hsum⟩
  | some pidx =>
    obtain ⟨hplt, hpeq⟩ := findIdx?_spec hfi
    simp only [beq_iff_eq] at hpeq
    have h := processOpponents_invariant allPlayers k maxScore pr.1 pr.2 pidx
      day e ⟨hplt, hpeq⟩ hlen
    exact ⟨h.1, h.2.trans hsum⟩

lemma eloFold_snapshots (allPlayers : List String) (k maxScore : ℝ)
    (scores : List (List (String × ℝ))) :
    ∀ (hist : List (List ℝ)) (cur : List ℝ),
      (∀ s ∈ hist, s.sum = 1000 * (allPlayers.length : ℝ)) →
      cur.sum = 1000 * (allPlayers.length : ℝ) →
      cur.length = allPlayers.length →
      ∀ s ∈ (scores.foldl (fun acc day =>
          let e := processDay allPlayers k maxScore day acc.2
          (acc.1 ++ [e], e)) (hist, cur)).1,
        s.sum = 1000 * (allPlayers.length : ℝ) := by
  induction scores with
  | nil => intro hist cur hh _ _ s hs; exact hh s hs
  | cons d ds ih =>
    intro hist cur hh hc hl s hs
    simp only [List.foldl_cons] at hs
    have hd := processDay_invariant allPlayers k maxScore d cur hl
    refine ih (hist ++ [processDay allPlayers k maxScore d cur]) _ ?_
      (hd.2.trans hc) hd.1 s hs
    intro t ht
    rcases List.mem_append.mp ht with ht | ht
    · exact hh t ht
    · simp only [List.mem_singleton] at ht
      subst ht
      exact hd.2.trans hc

/-- C9: every rating snapshot in the history returned by
`calcEloIterated` — the initial one and the one after each day — has
component sum exactly `1000 ·` (number of players): each pairwise update
is zero-sum, so the total of the rating vector is conserved in exact
arithmetic. -/
theorem calcEloIterated_sum (scores : List (List (String × ℝ)))
    (allPlayers : List String) (k maxScore : ℝ) :
    ∀ snap ∈ calcEloIterated scores allPlayers k maxScore,
      snap.sum = 1000 * (allPlayers.length : ℝ) := by
  have hinit : (List.replicate allPlayers.length (1000 : ℝ)).sum
      = 1000 * (allPlayers.length : ℝ) := by
    simp [List.sum_replicate, nsmul_eq_mul, mul_comm]
  unfold calcEloIterated
  exact eloFold_snapshots allPlayers k maxScore scores _ _
    (by intro s hs; simp only [List.mem_singleton] at hs; subst hs
        exact hinit)
    hinit (by simp)

/-- Witness for C9: a concrete run (one player, one day) whose two
snapshots are both `[1000]`, with sum `1000 · 1`. -/
lemma demo_single_eval :
    calcEloIterated [[(("A" : String), 3)]] ["A"] 2 6 = [[1000], [1000]] := by
  simp only [calcEloIterated, List.length_cons, List.length_nil,
    List.foldl_cons, List.foldl_nil, processDay, processOpponents]
  norm_num [List.replicate]

theorem calcEloIterated_sum_witness :
    [(1000 : ℝ)] ∈ calcEloIterated [[(("A" : String), 3)]] ["A"] 2 6 ∧
      ([(1000 : ℝ)]).sum = 1000 * ((["A"] : List String).length : ℝ) :=
  ⟨by rw [demo_single_eval]; simp,
    calcEloIterated_sum [[(("A" : String), 3)]] ["A"] 2 6 [(1000 : ℝ)]
      (by rw [demo_single_eval]; simp)⟩

/-! ### MAP Elo (`calcMapElos`, `src/utils.js` lines 5-78) -/

/-- `geometricMean(arr)` from `src/utils.js` lines 5-8:
`exp((Σ log aᵢ) / n)`.  (On the empty array the source computes
`exp(0/0) = NaN` while the model gives `exp 0 = 1`; `calcMapElos` never
uses the value on an empty vector: normalization of an empty vector
divides no entries.) -/
def geometricMean (arr : List ℝ) : ℝ :=
  Real.exp ((arr.map Real.log).sum / arr.length)

/-- The numerator of the fixed-point update for player `i`
(`src/utils.js` lines 46-54), read off the current vector `p`. -/
def mapNum (w : List (List ℝ)) (n : ℕ) (p : List ℝ) (i : ℕ) : ℝ :=
  (List.range n).foldl (fun s j =>
    if j = i then s
    else s + (w.getD i []).getD j 0 * p.getD j 0
      / (p.getD i 0 + p.getD j 0))
    (1 / (p.getD i 0 + 1))

/-- The denominator of the fixed-point update for player `i`
(`src/utils.js` lines 46-54). -/
def mapDen (w : List (List ℝ)) (n : ℕ) (p : List ℝ) (i : ℕ) : ℝ :=
  (List.range n).foldl (fun s j =>
    if j = i then s
    else s + (w.getD j []).getD i 0 / (p.getD i 0 + p.getD j 0))
    (1 / (p.getD i 0 + 1))

/-- In-place update of `p[i]` (`src/utils.js` line 56). -/
def mapUpdateOne (w : List (List ℝ)) (n : ℕ) (p : List ℝ) (i : ℕ) :
    List ℝ :=
  p.set i (mapNum w n p i / mapDen w n p i)

/-- One Gauss-Seidel sweep over all players (`src/utils.js` lines 44-57):
later players see the already-updated values of earlier ones. -/
def mapUpdate (w : List (List ℝ)) (n : ℕ) (p : List ℝ) : List ℝ :=
  (List.range n).foldl (mapUpdateOne w n) p

/-- Renormalization by the geometric mean (`src/utils.js` lines 59-63). -/
def mapNormalize (p : List ℝ) : List ℝ :=
  let g := geometricMean p
  p.map (· / g)

/-- The effect of one loop iteration on the `p` vector: a sweep followed
by renormalization. -/
def mapStep (w : List (List ℝ)) (n : ℕ) (p : List ℝ) : List ℝ :=
  mapNormalize (mapUpdate w n p)

/-- Convergence measure `Σᵢ |pOld[i] − pNew[i]|`
(`src/utils.js` line 66). -/
def mapDiff (pOld pNew : List ℝ) : ℝ :=
  ((pOld.zip pNew).map (fun q => |q.1 - q.2|)).sum

/-- `computeNll(w, eloRatings)` from `src/utils.js` lines 10-33: the
diagnostic negative log-likelihood (base 10, normalized by the total
pairwise game count). -/
def computeNll (w : List (List ℝ)) (eloRatings : List ℝ) : ℝ :=
  let n := eloRatings.length
  let numGames := (w.map List.sum).sum
  let nll := (List.range n).foldl (fun acc i =>
    (List.range n).foldl (fun acc2 j =>
      if i ≠ j then
        let pIj := 1 / (1 + (10 : ℝ)
          ^ ((eloRatings.getD j 0 - eloRatings.getD i 0) / 400))
        let t1 := if 0 < (w.getD i []).getD j 0 then
            acc2 - (w.getD i []).getD j 0 * Real.logb 10 pIj
          else acc2
        if 0 < (w.getD j []).getD i 0 then
          t1 - (w.getD j []).getD i 0 * Real.logb 10 (1 - pIj)
        else t1
      else acc2) acc) 0
  nll / numGames

/-- The fixed-point loop of `calcMapElos` (`src/utils.js` lines 41-74)
with explicit fuel (the source's iteration cap of 200).  Returns the final
`p` vector, the collected diagnostic NLL values, and the number of sweeps
executed.  As in the source, the convergence check happens after the sweep
and the renormalization, and the NLL is only recorded when the loop does
not stop. -/
def mapLoop (w : List (List ℝ)) (n : ℕ) (tol : ℝ) :
    ℕ → List ℝ → List ℝ → List ℝ × List ℝ × ℕ
  | 0, p, nlls => (p, nlls, 0)
  | fuel + 1, p, nlls =>
    let p1 := mapStep w n p
    if mapDiff p p1 < tol then (p1, nlls, 1)
    else
      let elos := p1.map (fun x => 1000 + 400 * Real.logb 10 x)
      let r := mapLoop w n tol fuel p1 (nlls ++ [computeNll w elos])
      (r.1, r.2.1, r.2.2 + 1)

/-- The result record of `calcMapElos` (`src/utils.js` line 77). -/
structure MapResult where
  p : List ℝ
  elos : List ℝ
  nlls : List ℝ

/-- `calcMapElos(w, tol)` from `src/utils.js` lines 35-78 (the source's
default tolerance is `1e-6`; callers in the model pass it explicitly).
All `p` entries start at 1; the loop runs at most 200 sweeps; elos are
recovered as `1000 + 400·log10(p)`. -/
def calcMapElos (w : List (List ℝ)) (tol : ℝ) : MapResult :=
  let n := w.length
  let r := mapLoop w n tol 200 (List.replicate n 1) []
  { p := r.1
    elos := r.1.map (fun x => 1000 + 400 * Real.logb 10 x)
    nlls := r.2.1 }

/-! ### Termination and early stopping of the MAP loop (C7) -/

lemma mapLoop_count_le (w : List (List ℝ)) (n : ℕ) (tol : ℝ) :
    ∀ (fuel : ℕ) (p nlls : List ℝ),
      (mapLoop w n tol fuel p nlls).2.2 ≤ fuel := by
  intro fuel
  induction fuel with
  | zero => intro p nlls; simp [mapLoop]
  | succ m ih =>
    intro p nlls
    rw [mapLoop]
    split
    · simp
    · have h := ih (mapStep w n p)
        (nlls ++ [computeNll w ((mapStep w n p).map
          (fun x => 1000 + 400 * Real.logb 10 x))])
      simp only []
      omega

/-- C7: the fixed-point loop of `calcMapElos` performs at most 200 sweeps
(for every outcome matrix and tolerance), and it stops as soon as, after a
sweep and renormalization, the summed absolute change of the `p` vector
falls below the tolerance: with any fuel left, a state whose next step
changes less than `tol` finishes after exactly that one sweep. -/
theorem calcMapElos_terminates (w : List (List ℝ)) (tol : ℝ) :
    (mapLoop w w.length tol 200
        (List.replicate w.length 1) []).2.2 ≤ 200 ∧
      ∀ (fuel : ℕ) (p nlls : List ℝ), 0 < fuel →
        mapDiff p (mapStep w w.length p) < tol →
        mapLoop w w.length tol fuel p nlls
          = (mapStep w w.length p, nlls, 1) := by
  constructor
  · exact mapLoop_count_le w w.length tol 200 _ _
  · intro fuel p nlls hfuel hdiff
    cases fuel with
    | zero => omega
    | succ m =>
      rw [mapLoop]
      simp only [if_pos hdiff]

/-- Witness for C7 at a concrete input: the one-player zero matrix with
tolerance 1: one sweep maps `[1]` to itself, the diff is `0 < 1`, and the
loop indeed stops after one sweep. -/
lemma mapStep_single_eval : mapStep [[(0 : ℝ)]] 1 [1] = [1] := by
  have hr : List.range 1 = [0] := rfl
  simp only [mapStep, mapUpdate, hr, List.foldl_cons, List.foldl_nil,
    mapUpdateOne, mapNum, mapDen, mapNormalize, geometricMean]
  norm_num [List.set, Real.log_one, Real.exp_zero]

theorem calcMapElos_terminates_witness :
    (mapLoop [[(0 : ℝ)]] 1 1 200 (List.replicate 1 1) []).2.2 ≤ 200 ∧
      mapLoop [[(0 : ℝ)]] 1 1 1 [1] [] = ([1], [], 1) := by
  have h := calcMapElos_terminates [[(0 : ℝ)]] 1
  simp only [List.length_cons, List.length_nil, Nat.zero_add] at h
  refine ⟨h.1, ?_⟩
  have h2 := h.2 1 [1] [] (by norm_num)
    (by rw [mapStep_single_eval]; norm_num [mapDiff])
  rw [h2, mapStep_single_eval]

/-! ### The isolated-player invariant of MAP Elo (C2) -/

lemma foldl_add_zeros {l : List ℕ} {f : ℝ → ℕ → ℝ} {b : ℝ}
    (hf : ∀ s j, j ∈ l → f s j = s) : l.foldl f b = b :=
  foldl_invariant (fun s => s = b) f l b rfl
    (fun c a ha hc => by rw [hf c a ha, hc])

lemma getD_mem_or_default {α : Type} (l : List α) (j : ℕ) (d : α) :
    l.getD j d ∈ l ∨ l.getD j d = d := by
  rcases lt_or_ge j l.length with hj | hj
  · left
    rw [List.getD_eq_getElem?_getD, List.getElem?_eq_getElem hj,
      Option.getD_some]
    exact List.getElem_mem hj
  · right
    exact List.getD_eq_default _ _ hj

lemma wEntry_nonneg {w : List (List ℝ)}
    (hw : ∀ row ∈ w, ∀ x ∈ row, 0 ≤ x) (i j : ℕ) :
    0 ≤ (w.getD i []).getD j 0 := by
  rcases getD_mem_or_default (w.getD i []) j 0 with h | h
  · rcases getD_mem_or_default w i [] with h2 | h2
    · exact hw _ h2 _ h
    · rw [h2] at h; simp at h
  · rw [h]

lemma getD_nonneg {p : List ℝ} (hp : ∀ x ∈ p, 0 < x) (j : ℕ) :
    0 ≤ p.getD j 0 := by
  rcases getD_mem_or_default p j 0 with h | h
  · exact (hp _ h).le
  · rw [h]

lemma getD_pos {p : List ℝ} (hp : ∀ x ∈ p, 0 < x) {j : ℕ}
    (hj : j < p.length) : 0 < p.getD j 0 := by
  have : p.getD j 0 ∈ p := by
    rw [List.getD_eq_getElem?_getD, List.getElem?_eq_getElem hj,
      Option.getD_some]
    exact List.getElem_mem hj
  exact hp _ this

lemma foldl_add_nonneg {i : ℕ} {l : List ℕ} {t : ℕ → ℝ} {b : ℝ}
    (ht : ∀ j ∈ l, 0 ≤ t j) :
    b ≤ l.foldl (fun s j => if j = i then s else s + t j) b := by
  refine foldl_invariant (fun s => b ≤ s) _ l b le_rfl ?_
  intro c a ha hc
  by_cases h : a = i
  · simpa [h] using hc
  · simp only [if_neg h]
    have := ht a ha
    linarith

lemma mapNum_pos {w : List (List ℝ)} (n : ℕ) {p : List ℝ} (i : ℕ)
    (hw : ∀ row ∈ w, ∀ x ∈ row, 0 ≤ x) (hp : ∀ x ∈ p, 0 < x) :
    0 < mapNum w n p i := by
  have hbase : 0 < 1 / (p.getD i 0 + 1) := by
    have := getD_nonneg hp i
    positivity
  refine lt_of_lt_of_le hbase ?_
  unfold mapNum
  refine foldl_add_nonneg ?_
  intro j _
  have h1 := wEntry_nonneg hw i j
  have h2 := getD_nonneg hp j
  have h3 := getD_nonneg hp i
  positivity

lemma mapDen_pos {w : List (List ℝ)} (n : ℕ) {p : List ℝ} (i : ℕ)
    (hw : ∀ row ∈ w, ∀ x ∈ row, 0 ≤ x) (hp : ∀ x ∈ p, 0 < x) :
    0 < mapDen w n p i := by
  have hbase : 0 < 1 / (p.getD i 0 + 1) := by
    have := getD_nonneg hp i
    positivity
  refine lt_of_lt_of_le hbase ?_
  unfold mapDen
  refine foldl_add_nonneg ?_
  intro j _
  have h1 := wEntry_nonneg hw j i
  have h2 := getD_nonneg hp j
  have h3 := getD_nonneg hp i
  positivity

lemma mapUpdateOne_length (w : List (List ℝ)) (n : ℕ) (p : List ℝ)
    (i : ℕ) : (mapUpdateOne w n p i).length = p.length := by
  simp [mapUpdateOne]

lemma mapUpdateOne_pos {w : List (List ℝ)} {n : ℕ} {p : List ℝ} {i : ℕ}
    (hw : ∀ row ∈ w, ∀ x ∈ row, 0 ≤ x) (hp : ∀ x ∈ p, 0 < x) :
    ∀ x ∈ mapUpdateOne w n p i, 0 < x := by
  intro x hx
  rcases List.mem_or_eq_of_mem_set hx with h | h
  · exact hp _ h
  · rw [h]
    exact div_pos (mapNum_pos n i hw hp) (mapDen_pos n i hw hp)

lemma mapUpdateOne_getD_ne (w : List (List ℝ)) (n : ℕ) (p : List ℝ)
    {i j : ℕ} (h : j ≠ i) :
    (mapUpdateOne w n p j).getD i 0 = p.getD i 0 := by
  simp [mapUpdateOne, List.getD_eq_getElem?_getD, List.getElem?_set_ne h]

/-- For a player whose row and column of `w` vanish, the in-place update
sets that entry to exactly 1: numerator and denominator both collapse to
`1/(pᵢ+1) ≠ 0`. -/
lemma mapUpdateOne_isolated {w : List (List ℝ)} {n : ℕ} {p : List ℝ}
    {i : ℕ} (hi : i < p.length)
    (hrow : ∀ j, (w.getD i []).getD j 0 = 0)
    (hcol : ∀ j, (w.getD j []).getD i 0 = 0)
    (hp : ∀ x ∈ p, 0 < x) :
    (mapUpdateOne w n p i).getD i 0 = 1 := by
  have hnum : mapNum w n p i = 1 / (p.getD i 0 + 1) := by
    unfold mapNum
    refine foldl_add_zeros ?_
    intro s j _
    by_cases h : j = i
    · simp [h]
    · rw [if_neg h, hrow j]; ring
  have hden : mapDen w n p i = 1 / (p.getD i 0 + 1) := by
    unfold mapDen
    refine foldl_add_zeros ?_
    intro s j _
    by_cases h : j = i
    · simp [h]
    · rw [if_neg h, hcol j]; ring
  have hpos : (0 : ℝ) < 1 / (p.getD i 0 + 1) := by
    have := getD_pos hp hi
    positivity
  unfold mapUpdateOne
  rw [hnum, hden, div_self (ne_of_gt hpos), List.getD_eq_getElem?_getD,
    List.getElem?_set_self (by simpa using hi), Option.getD_some]

/-- Through a full Gauss-Seidel sweep an isolated player's entry ends at
exactly 1: its own update sets it to 1 and no later update touches it. -/
lemma mapUpdate_isolated {w : List (List ℝ)} {n : ℕ} {p : List ℝ}
    {i : ℕ} (hi : i < n) (hlen : p.length = n)
    (hw : ∀ row ∈ w, ∀ x ∈ row, 0 ≤ x)
    (hrow : ∀ j, (w.getD i []).getD j 0 = 0)
    (hcol : ∀ j, (w.getD j []).getD i 0 = 0)
    (hp : ∀ x ∈ p, 0 < x) :
    (mapUpdate w n p).getD i 0 = 1 := by
  have hmem : i ∈ List.range n := List.mem_range.mpr hi
  obtain ⟨s, t, hst⟩ := List.append_of_mem hmem
  have hnodup : (List.range n).Nodup := List.nodup_range n
  rw [hst] at hnodup
  have hit : i ∉ t := by
    have h2 := hnodup.of_append_right
    exact (List.nodup_cons.mp h2).1
  unfold mapUpdate
  rw [hst, List.foldl_append]
  set q := s.foldl (mapUpdateOne w n) p with hq
  have hqinv : q.length = n ∧ ∀ x ∈ q, 0 < x := by
    rw [hq]
    refine foldl_invariant (fun r => r.length = n ∧ ∀ x ∈ r, 0 < x) _ s p
      ⟨hlen, hp⟩ ?_
    intro c a _ hc
    exact ⟨by rw [mapUpdateOne_length, hc.1], mapUpdateOne_pos hw hc.2⟩
  rw [List.foldl_cons]
  refine foldl_invariant (fun r : List ℝ => r.getD i 0 = 1) _ t _ ?_ ?_
  · exact mapUpdateOne_isolated (by omega) hrow hcol hqinv.2
  · intro c a ha hc
    rw [mapUpdateOne_getD_ne w n c (by rintro rfl; exact hit ha), hc]

lemma mapUpdate_length (w : List (List ℝ)) (n : ℕ) (p : List ℝ) :
    (mapUpdate w n p).length = p.length := by
  unfold mapUpdate
  refine foldl_invariant (fun r : List ℝ => r.length = p.length) _
    (List.range n) p rfl ?_
  intro c a _ hc
  rw [mapUpdateOne_length, hc]

/-- C2 (amended): for a player `i` whose row and column of the outcome
matrix are all zero (given nonnegative matrix entries and a positive
current `p` vector, as hold throughout a `calcMapElos` run), each sweep's
update phase resets `p i` to exactly 1 — but the per-sweep geometric-mean
renormalization then rescales it to `1 / geometricMean` of the swept
vector, which in general is not 1, so after a full iteration `p i` (and
hence `elo i`) need not stay at `1` (resp. `1000`). -/
theorem mapStep_isolated (w : List (List ℝ)) (n : ℕ) (p : List ℝ) (i : ℕ)
    (hi : i < n) (hlen : p.length = n)
    (hw : ∀ row ∈ w, ∀ x ∈ row, 0 ≤ x)
    (hrow : ∀ j, (w.getD i []).getD j 0 = 0)
    (hcol : ∀ j, (w.getD j []).getD i 0 = 0)
    (hp : ∀ x ∈ p, 0 < x) :
    (mapUpdate w n p).getD i 0 = 1 ∧
      (mapStep w n p).getD i 0 = 1 / geometricMean (mapUpdate w n p) := by
  have h1 := mapUpdate_isolated hi hlen hw hrow hcol hp
  refine ⟨h1, ?_⟩
  have hi' : i < (mapUpdate w n p).length := by
    rw [mapUpdate_length, hlen]; omega
  have hval : (mapUpdate w n p)[i] = 1 := by
    have h2 := h1
    rwa [List.getD_eq_getElem?_getD, List.getElem?_eq_getElem hi',
      Option.getD_some] at h2
  rw [mapStep, mapNormalize]
  simp only [List.getD_eq_getElem?_getD, List.getElem?_map,
    List.getElem?_eq_getElem hi', Option.map_some', Option.getD_some, hval]

/-! ### A concrete refutation of the renormalized invariant (C2) -/

/-- A three-player outcome matrix in which player 0 has zero recorded
games against everyone (`w3[0][j] = w3[j][0] = 0` for all `j`), while
player 1 beat player 2 with total outcome 1. -/
def w3 : List (List ℝ) := [[0, 0, 0], [0, 0, 1], [0, 0, 0]]

/-- The geometric mean of the vector `[1, 2, 3/5]` produced by the first
sweep on `w3`: `(6/5) ^ (1/3)`. -/
def gDemo : ℝ := Real.exp (Real.log (6 / 5) / 3)

lemma w3_update_eval : mapUpdate w3 3 [1, 1, 1] = [1, 2, 3 / 5] := by
  have hr : List.range 3 = [0, 1, 2] := rfl
  norm_num [mapUpdate, hr, mapUpdateOne, mapNum, mapDen, w3, List.set,
    List.foldl_cons, List.foldl_nil, List.getD_cons_zero,
    List.getD_cons_succ]

lemma geometricMean_eval : geometricMean [1, 2, 3 / 5] = gDemo := by
  have hlog : Real.log 2 + Real.log (3 / 5) = Real.log (6 / 5) := by
    rw [← Real.log_mul (by norm_num) (by norm_num)]
    norm_num
  simp only [geometricMean, gDemo, List.map_cons, List.map_nil,
    List.sum_cons, List.sum_nil, List.length_cons, List.length_nil,
    Real.log_one]
  norm_num [hlog]

lemma gDemo_bounds : 1 < gDemo ∧ gDemo < 2 := by
  have hL : 0 < Real.log (6 / 5) := Real.log_pos (by norm_num)
  have hL2 : Real.log (6 / 5) < Real.log 2 :=
    Real.log_lt_log (by norm_num) (by norm_num)
  have h2 : 0 < Real.log 2 := Real.log_pos (by norm_num)
  constructor
  · exact Real.one_lt_exp_iff.mpr (by positivity)
  · have : Real.log (6 / 5) / 3 < Real.log 2 := by linarith
    calc gDemo < Real.exp (Real.log 2) := Real.exp_lt_exp.mpr this
    _ = 2 := Real.exp_log (by norm_num)

lemma w3_step_eval :
    mapStep w3 3 [1, 1, 1] = [1 / gDemo, 2 / gDemo, 3 / 5 / gDemo] := by
  rw [mapStep, w3_update_eval]
  simp [mapNormalize, geometricMean_eval]

lemma w3_diff_lt : mapDiff [1, 1, 1] (mapStep w3 3 [1, 1, 1]) < 2 := by
  rw [w3_step_eval]
  obtain ⟨hg1, hg2⟩ := gDemo_bounds
  have hgpos : 0 < gDemo := by linarith
  have ha : 1 / gDemo < 1 := (div_lt_one hgpos).mpr hg1
  have hb : 1 < 2 / gDemo := (one_lt_div hgpos).mpr hg2
  have hc : 3 / 5 / gDemo < 1 := (div_lt_one hgpos).mpr (by linarith)
  have hapos : 0 < 1 / gDemo := by positivity
  have hcpos : 0 < 3 / 5 / gDemo := by positivity
  simp only [mapDiff, List.zip, List.zipWith, List.map_cons, List.map_nil,
    List.sum_cons, List.sum_nil]
  rw [abs_of_nonneg (by linarith), abs_of_nonpos (by linarith),
    abs_of_nonneg (by linarith)]
  have key : 1 / gDemo + 3 / 5 / gDemo - 2 / gDemo = -(2 / 5 / gDemo) := by
    field_simp
    ring
  have hd : 2 / 5 / gDemo < 1 := (div_lt_one hgpos).mpr (by linarith)
  linarith [key, hd]

lemma w3_loop_eval :
    mapLoop w3 3 2 200 [1, 1, 1] [] = (mapStep w3 3 [1, 1, 1], [], 1) := by
  rw [show (200 : ℕ) = 199 + 1 from rfl, mapLoop]
  simp only [if_pos w3_diff_lt]

lemma calcMapElos_w3_eval :
    calcMapElos w3 2 =
      { p := [1 / gDemo, 2 / gDemo, 3 / 5 / gDemo]
        elos := [1 / gDemo, 2 / gDemo, 3 / 5 / gDemo].map
          (fun x => 1000 + 400 * Real.logb 10 x)
        nlls := [] } := by
  have hn : w3.length = 3 := rfl
  have hrep : List.replicate 3 (1 : ℝ) = [1, 1, 1] := rfl
  simp only [calcMapElos, hn, hrep, w3_loop_eval, w3_step_eval]

/-- C2 (counterexample): on the matrix `w3`, whose player 0 has zero
recorded games against everyone, the claimed invariant fails.  The state
after the first iteration (one sweep plus renormalization — the same for
every tolerance, hence also inside the default `1e-6` run) has
`p 0 ≠ 1`, and `calcMapElos` run with a tolerance that stops it right
after that first iteration returns `p 0 ≠ 1` and `elo 0 ≠ 1000`: the
per-sweep geometric-mean renormalization divides the isolated player's
entry (which the update phase had reset to 1) by the geometric mean
`(6/5)^(1/3) > 1` of the swept vector. -/
theorem calcMapElos_isolated_ne :
    (mapStep w3 3 (List.replicate 3 1)).getD 0 0 ≠ 1 ∧
      (calcMapElos w3 2).p.getD 0 0 ≠ 1 ∧
      (calcMapElos w3 2).elos.getD 0 0 ≠ 1000 := by
  have hrep : List.replicate 3 (1 : ℝ) = [1, 1, 1] := rfl
  refine ⟨?_, ?_⟩
  · rw [hrep, w3_step_eval]
    obtain ⟨hg1, hg2⟩ := gDemo_bounds
    have hgpos : (0 : ℝ) < gDemo := by linarith
    simp only [List.getD_cons_zero]
    exact ne_of_lt ((div_lt_one hgpos).mpr hg1)
  rw [calcMapElos_w3_eval]
  obtain ⟨hg1, hg2⟩ := gDemo_bounds
  have hgpos : (0 : ℝ) < gDemo := by linarith
  have hlt : 1 / gDemo < 1 := (div_lt_one hgpos).mpr hg1
  constructor
  · simp only [List.getD_cons_zero]
    exact ne_of_lt hlt
  · simp only [List.map_cons, List.getD_cons_zero]
    have hpos : (0 : ℝ) < 1 / gDemo := by positivity
    have hlb : Real.logb 10 (1 / gDemo) < 0 :=
      Real.logb_neg (by norm_num) hpos hlt
    intro h
    have : Real.logb 10 (1 / gDemo) = 0 := by linarith
    linarith

/-- Witness for the amended C2 statement at the concrete matrix `w3`,
isolated player 0, initial vector `[1, 1, 1]`. -/
theorem mapStep_isolated_witness :
    (mapUpdate w3 3 [1, 1, 1]).getD 0 0 = 1 ∧
      (mapStep w3 3 [1, 1, 1]).getD 0 0
        = 1 / geometricMean (mapUpdate w3 3 [1, 1, 1]) := by
  refine mapStep_isolated w3 3 [1, 1, 1] 0 (by norm_num) (by norm_num)
    ?_ ?_ ?_ ?_
  · intro row hrw x hx
    fin_cases hrw <;> fin_cases hx <;> norm_num
  · intro j
    have h0 : w3.getD 0 [] = [0, 0, 0] := rfl
    rw [h0]
    rcases j with _ | _ | _ | j
    · rfl
    · rfl
    · rfl
    · exact List.getD_eq_default _ _ (by simp)
  · intro j
    rcases j with _ | _ | _ | j
    · rfl
    · rfl
    · rfl
    · have h0 : w3.getD (j + 3) [] = [] := List.getD_eq_default _ _ (by simp [w3])
      rw [h0]
      rfl
  · intro x hx
    fin_cases hx <;> norm_num

/-! ### The leaderboard assembler
(`calculateLeaderboard`, `src/utils.js` lines 455-683)

The input is the ordered list of day groups (the source's `scores` object
iterated via `Object.values` in key order); each day group is a list of
`(player, score)` pairs.  Scores are kept as reals, matching the source
where they are plain numbers by the time they reach the engine. -/

/-- The configuration options of `calculateLeaderboard`
(`src/utils.js` lines 456-464).  `statsMethodElo` stands for
`statsMethod === 'Elo'` (anything else selects the Average branch) and
`eloMethodMAP` for `eloMethod === 'MAP'` (anything else selects
Iterated). -/
structure LbOptions where
  xIsSeven : Bool
  gameCutoff : ℕ
  statsMethodElo : Bool
  eloMethodMAP : Bool
  eloK : ℝ
  dayAdjustment : Bool
  bayesAdjustment : Bool

/-- A leaderboard entry `{player, numGames, rating}`. -/
structure LbEntry where
  player : String
  numGames : ℕ
  rating : ℝ

/-- First-occurrence deduplication — the iteration order
`[...new Set(...)]` preserves (`src/utils.js` lines 467-469). -/
def uniqueFirst (l : List String) : List String :=
  l.foldl (fun acc x => if x ∈ acc then acc else acc ++ [x]) []

/-- The player universe: every player appearing in any day group, in
first-appearance order (`src/utils.js` lines 467-469). -/
def allPlayersOf (scores : List (List (String × ℝ))) : List String :=
  uniqueFirst (scores.flatten.map Prod.fst)

/-- `numGames[player]` (`src/utils.js` lines 472-477): the number of
`(player, score)` records of the player across all days. -/
def numGamesOf (scores : List (List (String × ℝ))) (p : String) : ℕ :=
  (scores.flatten.filter (fun q => q.1 == p)).length

/-- Add `v` to cell `(i, j)` of a matrix
(`winMatrix[idx1][idx2] += v`, `src/utils.js` line 498). -/
def bumpCell (m : List (List ℝ)) (i j : ℕ) (v : ℝ) : List (List ℝ) :=
  m.set i ((m.getD i []).set j ((m.getD i []).getD j 0 + v))

/-- The aggregated outcome matrix of the MAP branch
(`src/utils.js` lines 487-501): for every day and every ordered pair of
distinct entries of that day, add `points(score1, score2, maxScore)` to
the corresponding cell.  (In the source both players are always found in
`playerIndex`; the `none` fallthrough is unreachable.) -/
def winMatrix (scores : List (List (String × ℝ))) (maxScore : ℝ)
    (allPlayers : List String) : List (List ℝ) :=
  scores.foldl (fun m day =>
    day.foldl (fun m1 o1 =>
      day.foldl (fun m2 o2 =>
        if o1.1 = o2.1 then m2
        else
          match allPlayers.findIdx? (· == o1.1),
              allPlayers.findIdx? (· == o2.1) with
          | some i, some j => bumpCell m2 i j (points o1.2 o2.2 maxScore)
          | _, _ => m2) m1) m)
    (List.replicate allPlayers.length
      (List.replicate allPlayers.length 0))

/-- Attach `numGames` and the indexed rating to each player
(`src/utils.js` lines 505-510 and 524-529). -/
def eloEntries (allPlayers : List String) (numGames : String → ℕ)
    (elos : List ℝ) : List LbEntry :=
  allPlayers.enum.map (fun q => ⟨q.2, numGames q.2, elos.getD q.1 0⟩)

/-- `.sort((a, b) => b.rating - a.rating)` — descending by rating
(`src/utils.js` lines 512 and 531). -/
def sortByRatingDesc (l : List LbEntry) : List LbEntry :=
  l.mergeSort (fun a b => decide (b.rating ≤ a.rating))

/-! #### The Average branch (`src/utils.js` lines 533-682) -/

/-- The per-day score record of a player (`playerDayScores[player]`,
`src/utils.js` lines 539-552): for each day index, the score recorded for
the player on that day.  The source stores the scores in an object keyed
by day index, so when a player occurs twice in one day the later record
overwrites the earlier one — hence `getLast?`; days where the player is
absent contribute nothing. -/
def playerDayScores (scores : List (List (String × ℝ))) (p : String) :
    List (ℕ × ℝ) :=
  scores.enum.filterMap (fun q =>
    ((q.2.filter (fun o => o.1 == p)).getLast?).map (fun o => (q.1, o.2)))

/-- The grand average raw score over all games
(`src/utils.js` lines 555-556). -/
def overallAverage (scores : List (List (String × ℝ))) : ℝ :=
  let allGameScores := scores.flatten.map Prod.snd
  allGameScores.sum / allGameScores.length

/-- A day's mean score (`src/utils.js` line 562). -/
def dayAvg (day : List (String × ℝ)) : ℝ :=
  (day.map Prod.snd).sum / day.length

/-- The day effect (`src/utils.js` lines 559-570): the day's mean minus
the grand average when day adjustment is on, otherwise 0. -/
def dayEffect (scores : List (List (String × ℝ))) (dayAdj : Bool)
    (d : ℕ) : ℝ :=
  if dayAdj then dayAvg (scores.getD d []) - overallAverage scores else 0

/-- Per-player aggregates (`src/utils.js` lines 574-614).  The source
also computes `adjustedStd`, `adjustedSe` and a `dayAdjustment` delta
that no later code reads; they are omitted here.  For `numGames = 1` the
source sets `adjustedVar = NaN` and never reads it; the model's
`0/0 = 0` value is equally never read. -/
structure PlayerStat where
  player : String
  numGames : ℕ
  rawAvg : ℝ
  adjustedAvg : ℝ
  adjustedVar : ℝ

/-- Build the aggregates of one player (`src/utils.js` lines 578-613):
day-adjusted scores, averages, and the Bessel-corrected variance. -/
def mkPlayerStat (scores : List (List (String × ℝ))) (dayAdj : Bool)
    (p : String) : PlayerStat :=
  let ds := playerDayScores scores p
  let rawScores := ds.map Prod.snd
  let adjustedScores := ds.map (fun q => q.2 - dayEffect scores dayAdj q.1)
  let nGames := adjustedScores.length
  let rawAvg := rawScores.sum / rawScores.length
  let adjustedAvg := adjustedScores.sum / adjustedScores.length
  let adjustedVar := (adjustedScores.map
    (fun x => (x - adjustedAvg) ^ 2)).sum / ((nGames : ℝ) - 1)
  ⟨p, nGames, rawAvg, adjustedAvg, adjustedVar⟩

/-- `playerStats` (`src/utils.js` lines 573-614): one aggregate record
per player of the universe, skipping players with no recorded days. -/
def avgPlayerStats (scores : List (List (String × ℝ))) (dayAdj : Bool) :
    List PlayerStat :=
  (allPlayersOf scores).filterMap (fun p =>
    if (playerDayScores scores p).isEmpty then none
    else some (mkPlayerStat scores dayAdj p))

/-- The between-player variance `τ²` (`src/utils.js` lines 627-642),
computed from the reliable (`numGames ≥ 2`) players and floored at 0.01.
(The source also computes a `weightedMean` of the sample means on line
633 that no later code reads.) -/
def tauSquared (stats : List PlayerStat) (popMean : ℝ) : ℝ :=
  let reliable := stats.filter (fun q => decide (2 ≤ q.numGames))
  let totalWeight := (reliable.map (fun q => (q.numGames : ℝ))).sum
  let weightedVarMeans := (reliable.map (fun q =>
    (q.numGames : ℝ) * (q.adjustedAvg - popMean) ^ 2)).sum / totalWeight
  let avgSamplingVar := (reliable.map (fun q =>
    (q.numGames : ℝ) * (q.adjustedVar / q.numGames))).sum / totalWeight
  max 0.01 (weightedVarMeans - avgSamplingVar)

/-- The shrinkage factor `τ² / (τ² + adjustedVar/n)`
(`src/utils.js` line 646). -/
def shrinkageFactor (tau2 : ℝ) (st : PlayerStat) : ℝ :=
  tau2 / (tau2 + st.adjustedVar / st.numGames)

/-- A player aggregate together with its final score. -/
structure ScoredStat where
  stat : PlayerStat
  finalScore : ℝ

/-- `finalStats` (`src/utils.js` lines 616-671): with Bayesian
adjustment on and at least one reliable player, reliable players are
shrunk toward the population mean (the grand raw average) and
single-game players are set to the population mean exactly; otherwise
every player keeps their adjusted average. -/
def averageScored (scores : List (List (String × ℝ)))
    (dayAdj bayesAdj : Bool) : List ScoredStat :=
  let stats := avgPlayerStats scores dayAdj
  let popMean := overallAverage scores
  if bayesAdj && !stats.isEmpty then
    let reliable := stats.filter (fun q => decide (2 ≤ q.numGames))
    if !reliable.isEmpty then
      let tau2 := tauSquared stats popMean
      (reliable.map (fun st =>
          ⟨st, shrinkageFactor tau2 st * st.adjustedAvg
            + (1 - shrinkageFactor tau2 st) * popMean⟩))
        ++ ((stats.filter (fun q => decide (q.numGames = 1))).map
          (fun st => ⟨st, popMean⟩))
    else stats.map (fun st => ⟨st, st.adjustedAvg⟩)
  else stats.map (fun st => ⟨st, st.adjustedAvg⟩)

/-- `.sort((a, b) => a.finalScore - b.finalScore)` — ascending
(`src/utils.js` line 676). -/
def sortByFinalAsc (l : List ScoredStat) : List ScoredStat :=
  l.mergeSort (fun a b => decide (a.finalScore ≤ b.finalScore))

/-- `calculateLeaderboard(scores, options)`
(`src/utils.js` lines 455-683). -/
def calculateLeaderboard (scores : List (List (String × ℝ)))
    (opts : LbOptions) : List LbEntry :=
  let allPlayers := allPlayersOf scores
  let numGames := fun p => numGamesOf scores p
  let maxScore : ℝ := if opts.xIsSeven then 7 else 6
  if opts.statsMethodElo then
    if opts.eloMethodMAP then
      let m := winMatrix scores maxScore allPlayers
      let elos := (calcMapElos m 1e-6).elos
      sortByRatingDesc ((eloEntries allPlayers numGames elos).filter
        (fun e => decide (opts.gameCutoff ≤ e.numGames)))
    else
      let hist := calcEloIterated scores allPlayers opts.eloK maxScore
      let finalElos := hist.getLastD []
      sortByRatingDesc ((eloEntries allPlayers numGames finalElos).filter
        (fun e => decide (opts.gameCutoff ≤ e.numGames)))
  else
    let scored := averageScored scores opts.dayAdjustment
      opts.bayesAdjustment
    (sortByFinalAsc (scored.filter
        (fun st => decide (opts.gameCutoff ≤ st.stat.numGames)))).map
      (fun st => ⟨st.stat.player, st.stat.numGames, st.finalScore⟩)

/-! ### Empty input (C10) -/

lemma mapStep_nil : mapStep [] 0 [] = [] := by
  have hr : List.range 0 = [] := rfl
  simp [mapStep, mapUpdate, mapNormalize, hr]

lemma calcMapElos_nil {tol : ℝ} (htol : 0 < tol) :
    (calcMapElos [] tol).elos = [] := by
  simp only [calcMapElos, List.length_nil, List.replicate]
  rw [show (200 : ℕ) = 199 + 1 from rfl, mapLoop]
  simp [mapStep_nil, mapDiff, htol]

/-- C10: the empty input mapping (no day groups, hence an empty player
universe) yields the empty leaderboard for every configuration, rather
than failing. -/
theorem calculateLeaderboard_empty (opts : LbOptions) :
    calculateLeaderboard [] opts = [] := by
  obtain ⟨x7, cutoff, sElo, eMAP, k, dAdj, bAdj⟩ := opts
  cases sElo
  · simp [calculateLeaderboard, averageScored, avgPlayerStats, allPlayersOf,
      uniqueFirst, sortByFinalAsc, List.mergeSort_nil]
  · cases eMAP
    · simp [calculateLeaderboard, allPlayersOf, uniqueFirst, calcEloIterated,
        eloEntries, sortByRatingDesc, List.mergeSort_nil]
    · simp [calculateLeaderboard, allPlayersOf, uniqueFirst, winMatrix,
        eloEntries, sortByRatingDesc, List.mergeSort_nil,
        calcMapElos_nil (by norm_num : (0 : ℝ) < 1e-6)]

/-! ### No score validation (C3) -/

/-- The Average-method configuration used in the C3 theorems: Average
method, no day or Bayes adjustment, game cutoff 1. -/
def plainAvgOpts : LbOptions :=
  ⟨false, 1, false, false, 2, false, false⟩

/-- A single day with a single player scoring `s` flows through the
engine untouched, whatever `s` is: no validation, no clamping. -/
lemma avgSingle_eval (s : ℝ) :
    calculateLeaderboard [[("A", s)]] plainAvgOpts = [⟨"A", 1, s⟩] := by
  norm_num [calculateLeaderboard, plainAvgOpts, averageScored, avgPlayerStats,
    allPlayersOf, uniqueFirst, playerDayScores, mkPlayerStat, dayEffect,
    sortByFinalAsc, List.mergeSort_singleton, List.enum_cons,
    List.filterMap_cons]

/-- C3 (counterexample): on an input whose only raw score is 8 — outside
`[1, 7]` — `calculateLeaderboard` reports no error of any kind and emits
a nonempty leaderboard carrying the out-of-range score unchanged (the
function has no validation and no error channel at all). -/
theorem calculateLeaderboard_no_validation :
    calculateLeaderboard [[("A", 8)]] plainAvgOpts = [⟨"A", 1, 8⟩] ∧
      calculateLeaderboard [[("A", 8)]] plainAvgOpts ≠ [] := by
  refine ⟨avgSingle_eval 8, ?_⟩
  rw [avgSingle_eval 8]
  simp

/-- C3 (amended): `calculateLeaderboard` performs no range validation on
raw scores: for EVERY score value `s` — in `[1,7]` or not — the engine
computes the leaderboard normally, passing `s` through unclamped; any
validation happens upstream (the message parser discards out-of-range
scores before they reach the engine). -/
theorem calculateLeaderboard_passes_score (s : ℝ) :
    calculateLeaderboard [[("A", s)]] plainAvgOpts = [⟨"A", 1, s⟩] :=
  avgSingle_eval s

/-! ### Shrinkage never overshoots (C4) -/

lemma mem_avgPlayerStats {scores : List (List (String × ℝ))} {dA : Bool}
    {st : PlayerStat} (h : st ∈ avgPlayerStats scores dA) :
    ∃ p ∈ allPlayersOf scores, playerDayScores scores p ≠ [] ∧
      st = mkPlayerStat scores dA p := by
  rw [avgPlayerStats, List.mem_filterMap] at h
  obtain ⟨p, hp, hf⟩ := h
  by_cases he : (playerDayScores scores p).isEmpty
  · simp [he] at hf
  · rw [if_neg (by simp [he])] at hf
    exact ⟨p, hp, by simpa [List.isEmpty_iff] using he,
      (Option.some_inj.mp hf).symm⟩

lemma mkPlayerStat_var_nonneg (scores : List (List (String × ℝ)))
    (dA : Bool) (p : String) :
    0 ≤ (mkPlayerStat scores dA p).adjustedVar := by
  simp only [mkPlayerStat]
  by_cases h : playerDayScores scores p = []
  · rw [h]; simp
  · apply div_nonneg
    · apply List.sum_nonneg
      intro x hx
      obtain ⟨y, _, rfl⟩ := List.mem_map.mp hx
      positivity
    · have h1 : 1 ≤ (playerDayScores scores p).length :=
        List.length_pos.mpr h
      have h2 : (1 : ℝ) ≤ (((playerDayScores scores p).map
          (fun q => q.2 - dayEffect scores dA q.1)).length : ℝ) := by
        rw [List.length_map]
        exact_mod_cast h1
      linarith

lemma avgPlayerStats_var_nonneg {scores : List (List (String × ℝ))}
    {dA : Bool} {st : PlayerStat} (h : st ∈ avgPlayerStats scores dA) :
    0 ≤ st.adjustedVar := by
  obtain ⟨p, -, -, rfl⟩ := mem_avgPlayerStats h
  exact mkPlayerStat_var_nonneg scores dA p

lemma tauSquared_pos (stats : List PlayerStat) (popMean : ℝ) :
    0 < tauSquared stats popMean :=
  lt_of_lt_of_le (by norm_num) (le_max_left 0.01 _)

lemma shrinkageFactor_unit {tau2 : ℝ} (ht : 0 < tau2) {st : PlayerStat}
    (hv : 0 ≤ st.adjustedVar) :
    0 ≤ shrinkageFactor tau2 st ∧ shrinkageFactor tau2 st ≤ 1 := by
  have hvn : 0 ≤ st.adjustedVar / st.numGames :=
    div_nonneg hv (Nat.cast_nonneg _)
  have hd : 0 < tau2 + st.adjustedVar / st.numGames := by linarith
  exact ⟨div_nonneg ht.le hd.le, (div_le_one hd).mpr (by linarith)⟩

lemma convex_mem_interval {s a m : ℝ} (h0 : 0 ≤ s) (h1 : s ≤ 1) :
    min a m ≤ s * a + (1 - s) * m ∧ s * a + (1 - s) * m ≤ max a m := by
  have hh1 : s * min a m ≤ s * a :=
    mul_le_mul_of_nonneg_left (min_le_left a m) h0
  have hh2 : (1 - s) * min a m ≤ (1 - s) * m :=
    mul_le_mul_of_nonneg_left (min_le_right a m) (by linarith)
  have hh3 : s * a ≤ s * max a m :=
    mul_le_mul_of_nonneg_left (le_max_left a m) h0
  have hh4 : (1 - s) * m ≤ (1 - s) * max a m :=
    mul_le_mul_of_nonneg_left (le_max_right a m) (by linarith)
  constructor
  · have : min a m = s * min a m + (1 - s) * min a m := by ring
    linarith
  · have : max a m = s * max a m + (1 - s) * max a m := by ring
    linarith

/-- C4: for every input and both adjustment flags, (i) every player's
final score lies in the closed interval between that player's
`adjustedAvg` and the `populationMean` (the grand raw average), (ii)
every shrinkage factor computed for a reliable (`numGames ≥ 2`) player
lies in `[0, 1]`, and (iii) when Bayesian shrinkage is enabled and at
least one reliable player exists, every single-game player's final score
is exactly the population mean. -/
theorem averageScored_shrinkage (scores : List (List (String × ℝ)))
    (dA bA : Bool) :
    (∀ st ∈ averageScored scores dA bA,
        min st.stat.adjustedAvg (overallAverage scores) ≤ st.finalScore ∧
          st.finalScore ≤ max st.stat.adjustedAvg (overallAverage scores)) ∧
      (∀ st ∈ avgPlayerStats scores dA, 2 ≤ st.numGames →
        0 ≤ shrinkageFactor (tauSquared (avgPlayerStats scores dA)
            (overallAverage scores)) st ∧
          shrinkageFactor (tauSquared (avgPlayerStats scores dA)
            (overallAverage scores)) st ≤ 1) ∧
      (bA = true →
        (avgPlayerStats scores dA).filter
            (fun q => decide (2 ≤ q.numGames)) ≠ [] →
        ∀ st ∈ averageScored scores dA bA, st.stat.numGames = 1 →
          st.finalScore = overallAverage scores) := by
  refine ⟨?_, ?_, ?_⟩
  · intro st hst
    simp only [averageScored] at hst
    split_ifs at hst with h1 h2
    · rcases List.mem_append.mp hst with hm | hm
      · obtain ⟨q, hq, rfl⟩ := List.mem_map.mp hm
        have hq2 := List.mem_filter.mp hq
        have hv : 0 ≤ q.adjustedVar := avgPlayerStats_var_nonneg hq2.1
        obtain ⟨hs0, hs1⟩ :=
          shrinkageFactor_unit (tauSquared_pos _ _) hv
        exact convex_mem_interval hs0 hs1
      · obtain ⟨q, hq, rfl⟩ := List.mem_map.mp hm
        exact ⟨min_le_right _ _, le_max_right _ _⟩
    · obtain ⟨q, hq, rfl⟩ := List.mem_map.mp hst
      exact ⟨min_le_left _ _, le_max_left _ _⟩
    · obtain ⟨q, hq, rfl⟩ := List.mem_map.mp hst
      exact ⟨min_le_left _ _, le_max_left _ _⟩
  · intro st hst _
    exact shrinkageFactor_unit (tauSquared_pos _ _)
      (avgPlayerStats_var_nonneg hst)
  · intro hbA hrel st hst h1g
    simp only [averageScored] at hst
    have hstats : avgPlayerStats scores dA ≠ [] := by
      intro hc
      rw [hc] at hrel
      simp at hrel
    rw [if_pos (by simp [hbA, List.isEmpty_iff, hstats]),
      if_pos (by simp [List.isEmpty_iff, hrel])] at hst
    rcases List.mem_append.mp hst with hm | hm
    · obtain ⟨q, hq, rfl⟩ := List.mem_map.mp hm
      have hq2 := List.mem_filter.mp hq
      have : (2 : ℕ) ≤ q.numGames := by simpa using hq2.2
      simp only at h1g
      omega
    · obtain ⟨q, hq, rfl⟩ := List.mem_map.mp hm
      rfl

/-- Two days: A scores 2 then 4; B scores 4 on day one only.  Used to
witness the shrinkage bounds at a concrete input. -/
def demo2 : List (List (String × ℝ)) := [[("A", 2), ("B", 4)], [("A", 4)]]

lemma demo2_players : allPlayersOf demo2 = ["A", "B"] := by
  have hBA : (("B" : String) = "A") = False := eq_false (by decide)
  norm_num [allPlayersOf, demo2, uniqueFirst, hBA]

lemma demo2_overall : overallAverage demo2 = 10 / 3 := by
  norm_num [overallAverage, demo2]

lemma demo2_pdsA : playerDayScores demo2 "A" = [(0, 2), (1, 4)] := by
  have hBA : (("B" : String) = "A") = False := eq_false (by decide)
  norm_num [playerDayScores, demo2, hBA, List.enum_cons, List.enumFrom_cons,
    List.filterMap_cons]

lemma demo2_pdsB : playerDayScores demo2 "B" = [(0, 4)] := by
  have hAB : (("A" : String) = "B") = False := eq_false (by decide)
  norm_num [playerDayScores, demo2, hAB, List.enum_cons, List.enumFrom_cons,
    List.filterMap_cons]

lemma demo2_dayEffect (d : ℕ) : dayEffect demo2 false d = 0 := by
  simp [dayEffect]

lemma demo2_statA : mkPlayerStat demo2 false "A" = ⟨"A", 2, 3, 3, 2⟩ := by
  norm_num [mkPlayerStat, demo2_pdsA, demo2_dayEffect, PlayerStat.mk.injEq]

lemma demo2_statB : mkPlayerStat demo2 false "B" = ⟨"B", 1, 4, 4, 0⟩ := by
  norm_num [mkPlayerStat, demo2_pdsB, demo2_dayEffect, PlayerStat.mk.injEq]

lemma demo2_stats :
    avgPlayerStats demo2 false = [⟨"A", 2, 3, 3, 2⟩, ⟨"B", 1, 4, 4, 0⟩] := by
  rw [avgPlayerStats, demo2_players]
  simp only [List.filterMap_cons, List.filterMap_nil, demo2_pdsA, demo2_pdsB]
  norm_num [demo2_statA, demo2_statB]

lemma demo2_tau2 :
    tauSquared [⟨"A", 2, 3, 3, 2⟩, ⟨"B", 1, 4, 4, 0⟩] (10 / 3) = 1 / 100 := by
  norm_num [tauSquared]

lemma demo2_tau :
    tauSquared (avgPlayerStats demo2 false) (overallAverage demo2)
      = 1 / 100 := by
  rw [demo2_stats, demo2_overall]
  exact demo2_tau2

lemma demo2_scored :
    averageScored demo2 false true =
      [⟨⟨"A", 2, 3, 3, 2⟩, 1009 / 303⟩, ⟨⟨"B", 1, 4, 4, 0⟩, 10 / 3⟩] := by
  simp only [averageScored, demo2_stats, demo2_overall]
  norm_num [demo2_tau2, shrinkageFactor]

/-- Witness for C4 at the concrete input `demo2`: player A's shrunk
final score `1009/303` lies between A's adjusted average 3 and the
population mean `10/3`; A's shrinkage factor lies in `[0, 1]`; and the
single-game player B receives exactly the population mean. -/
theorem averageScored_shrinkage_witness :
    (min (3 : ℝ) (10 / 3) ≤ 1009 / 303 ∧
        (1009 / 303 : ℝ) ≤ max (3 : ℝ) (10 / 3)) ∧
      (0 ≤ shrinkageFactor (tauSquared (avgPlayerStats demo2 false)
          (overallAverage demo2)) ⟨"A", 2, 3, 3, 2⟩ ∧
        shrinkageFactor (tauSquared (avgPlayerStats demo2 false)
          (overallAverage demo2)) ⟨"A", 2, 3, 3, 2⟩ ≤ 1) ∧
      ((⟨⟨"B", 1, 4, 4, 0⟩, 10 / 3⟩ : ScoredStat).finalScore
        = overallAverage demo2) := by
  have h := averageScored_shrinkage demo2 false true
  refine ⟨?_, ?_, ?_⟩
  · have h1 := h.1 ⟨⟨"A", 2, 3, 3, 2⟩, 1009 / 303⟩
      (by rw [demo2_scored]; simp)
    rw [demo2_overall] at h1
    exact h1
  · exact h.2.1 ⟨"A", 2, 3, 3, 2⟩ (by rw [demo2_stats]; simp) (by norm_num)
  · exact h.2.2 rfl
      (by rw [demo2_stats]; norm_num)
      ⟨⟨"B", 1, 4, 4, 0⟩, 10 / 3⟩ (by rw [demo2_scored]; simp)
      (by norm_num)

/-! ### Cutoff filter and sort order of the leaderboard (C8) -/

lemma mem_uniqueFirst_aux (l : List String) :
    ∀ (acc : List String) (p : String),
      p ∈ l.foldl (fun acc x => if x ∈ acc then acc else acc ++ [x]) acc ↔
        p ∈ acc ∨ p ∈ l := by
  induction l with
  | nil => simp
  | cons x xs ih =>
    intro acc p
    simp only [List.foldl_cons]
    rw [ih]
    by_cases h : x ∈ acc
    · simp only [if_pos h, List.mem_cons]
      constructor
      · rintro (hp | hp)
        · exact Or.inl hp
        · exact Or.inr (Or.inr hp)
      · rintro (hp | hp | hp)
        · exact Or.inl hp
        · exact Or.inl (hp ▸ h)
        · exact Or.inr hp
    · simp only [if_neg h, List.mem_append, List.mem_singleton,
        List.mem_cons]
      tauto

lemma mem_uniqueFirst {l : List String} {p : String} :
    p ∈ uniqueFirst l ↔ p ∈ l := by
  rw [uniqueFirst, mem_uniqueFirst_aux]
  simp

lemma sortByRatingDesc_perm (l : List LbEntry) :
    (sortByRatingDesc l).Perm l :=
  List.mergeSort_perm l _

lemma sortByRatingDesc_sorted (l : List LbEntry) :
    (sortByRatingDesc l).Pairwise (fun a b => b.rating ≤ a.rating) := by
  have h := @List.sorted_mergeSort LbEntry
    (fun a b : LbEntry => decide (b.rating ≤ a.rating))
    (fun a b c hab hbc => by
      simp only [decide_eq_true_eq] at *
      linarith)
    (fun a b => by
      simp only [Bool.or_eq_true, decide_eq_true_eq]
      exact le_total b.rating a.rating) l
  exact h.imp (by simp only [decide_eq_true_eq]; exact id)

lemma sortByFinalAsc_perm (l : List ScoredStat) :
    (sortByFinalAsc l).Perm l :=
  List.mergeSort_perm l _

lemma sortByFinalAsc_sorted (l : List ScoredStat) :
    (sortByFinalAsc l).Pairwise
      (fun a b => a.finalScore ≤ b.finalScore) := by
  have h := @List.sorted_mergeSort ScoredStat
    (fun a b : ScoredStat => decide (a.finalScore ≤ b.finalScore))
    (fun a b c hab hbc => by
      simp only [decide_eq_true_eq] at *
      linarith)
    (fun a b => by
      simp only [Bool.or_eq_true, decide_eq_true_eq]
      exact le_total a.finalScore b.finalScore) l
  exact h.imp (by simp only [decide_eq_true_eq]; exact id)

lemma mem_eloEntries {ap : List String} {ng : String → ℕ} {elos : List ℝ}
    {e : LbEntry} (h : e ∈ eloEntries ap ng elos) :
    e.player ∈ ap ∧ e.numGames = ng e.player := by
  obtain ⟨q, hq, rfl⟩ := List.mem_map.mp h
  obtain ⟨i, x⟩ := q
  obtain ⟨hi, hx⟩ := List.mem_enum hq
  refine ⟨?_, rfl⟩
  dsimp only
  rw [hx]
  exact List.getElem_mem hi

lemma eloEntries_covers {ap : List String} (ng : String → ℕ)
    (elos : List ℝ) {p : String} (h : p ∈ ap) :
    ∃ e ∈ eloEntries ap ng elos, e.player = p ∧ e.numGames = ng p := by
  obtain ⟨i, hi, rfl⟩ := List.mem_iff_getElem.mp h
  refine ⟨⟨ap[i], ng ap[i], elos.getD i 0⟩, ?_, rfl, rfl⟩
  rw [eloEntries]
  exact List.mem_map.mpr ⟨(i, ap[i]),
    List.mk_mem_enum_iff_getElem?.mpr (List.getElem?_eq_getElem hi), rfl⟩

/-- The shared shape of both Elo branches: entries are built over the
player list, filtered by the game cutoff, and sorted descending. -/
lemma eloBranch_props (ap : List String) (ng : String → ℕ) (elos : List ℝ)
    (cutoff : ℕ) :
    (∀ e ∈ sortByRatingDesc ((eloEntries ap ng elos).filter
        (fun e => decide (cutoff ≤ e.numGames))),
      e.player ∈ ap ∧ cutoff ≤ e.numGames) ∧
      (∀ p ∈ ap,
        p ∉ (sortByRatingDesc ((eloEntries ap ng elos).filter
          (fun e => decide (cutoff ≤ e.numGames)))).map LbEntry.player →
        ng p < cutoff) ∧
      (sortByRatingDesc ((eloEntries ap ng elos).filter
        (fun e => decide (cutoff ≤ e.numGames)))).Pairwise
        (fun a b => b.rating ≤ a.rating) := by
  refine ⟨?_, ?_, sortByRatingDesc_sorted _⟩
  · intro e he
    have he2 := (sortByRatingDesc_perm _).mem_iff.mp he
    obtain ⟨hmem, hcut⟩ := List.mem_filter.mp he2
    refine ⟨(mem_eloEntries hmem).1, by simpa using hcut⟩
  · intro p hp hout
    by_contra hc
    push_neg at hc
    obtain ⟨e, he, hpl, hng⟩ := eloEntries_covers ng elos hp
    apply hout
    refine List.mem_map.mpr ⟨e, ?_, hpl⟩
    refine (sortByRatingDesc_perm _).mem_iff.mpr ?_
    exact List.mem_filter.mpr ⟨he, by simp [hng, hc]⟩

lemma mem_averageScored_stat {scores : List (List (String × ℝ))}
    {dA bA : Bool} {st : ScoredStat}
    (h : st ∈ averageScored scores dA bA) :
    st.stat ∈ avgPlayerStats scores dA := by
  simp only [averageScored] at h
  split_ifs at h with h1 h2
  · rcases List.mem_append.mp h with hm | hm
    · obtain ⟨q, hq, rfl⟩ := List.mem_map.mp hm
      exact (List.mem_filter.mp hq).1
    · obtain ⟨q, hq, rfl⟩ := List.mem_map.mp hm
      exact (List.mem_filter.mp hq).1
  · obtain ⟨q, hq, rfl⟩ := List.mem_map.mp h
    exact hq
  · obtain ⟨q, hq, rfl⟩ := List.mem_map.mp h
    exact hq

lemma avgPlayerStats_numGames_pos {scores : List (List (String × ℝ))}
    {dA : Bool} {st : PlayerStat} (h : st ∈ avgPlayerStats scores dA) :
    1 ≤ st.numGames := by
  obtain ⟨p, -, hne, rfl⟩ := mem_avgPlayerStats h
  simp only [mkPlayerStat, List.length_map]
  exact List.length_pos.mpr hne

/-- Every aggregate record reappears (exactly once per player, but we
only need existence) among the scored stats, whatever the flags. -/
lemma averageScored_covers {scores : List (List (String × ℝ))}
    {dA : Bool} (bA : Bool) {q : PlayerStat}
    (hq : q ∈ avgPlayerStats scores dA) :
    ∃ st ∈ averageScored scores dA bA, st.stat = q := by
  have hn := avgPlayerStats_numGames_pos hq
  simp only [averageScored]
  split_ifs with h1 h2
  · by_cases h2g : 2 ≤ q.numGames
    · refine ⟨⟨q, shrinkageFactor (tauSquared (avgPlayerStats scores dA)
          (overallAverage scores)) q * q.adjustedAvg
          + (1 - shrinkageFactor (tauSquared (avgPlayerStats scores dA)
            (overallAverage scores)) q) * overallAverage scores⟩,
        List.mem_append.mpr (Or.inl ?_), rfl⟩
      exact List.mem_map.mpr ⟨q, List.mem_filter.mpr ⟨hq, by simp [h2g]⟩, rfl⟩
    · have h1g : q.numGames = 1 := by omega
      refine ⟨⟨q, overallAverage scores⟩,
        List.mem_append.mpr (Or.inr ?_), rfl⟩
      exact List.mem_map.mpr ⟨q, List.mem_filter.mpr ⟨hq, by simp [h1g]⟩, rfl⟩
  · exact ⟨⟨q, q.adjustedAvg⟩, List.mem_map.mpr ⟨q, hq, rfl⟩, rfl⟩
  · exact ⟨⟨q, q.adjustedAvg⟩, List.mem_map.mpr ⟨q, hq, rfl⟩, rfl⟩

lemma allPlayersOf_pds_ne_nil {scores : List (List (String × ℝ))}
    {p : String} (hp : p ∈ allPlayersOf scores) :
    playerDayScores scores p ≠ [] := by
  rw [allPlayersOf, mem_uniqueFirst] at hp
  obtain ⟨o, ho, hop⟩ := List.mem_map.mp hp
  obtain ⟨day, hday, hoday⟩ := List.mem_flatten.mp ho
  obtain ⟨i, hi, hieq⟩ := List.mem_iff_getElem.mp hday
  have hfil : o ∈ day.filter (fun r => r.1 == p) :=
    List.mem_filter.mpr ⟨hoday, by simp [hop]⟩
  have hfne : day.filter (fun r => r.1 == p) ≠ [] :=
    List.ne_nil_of_mem hfil
  obtain ⟨last, hlast⟩ : ∃ a, (day.filter (fun r => r.1 == p)).getLast?
      = some a := by
    cases hl : (day.filter (fun r => r.1 == p)).getLast? with
    | none => exact absurd (List.getLast?_eq_none_iff.mp hl) hfne
    | some a => exact ⟨a, rfl⟩
  apply @List.ne_nil_of_mem _ (i, last.2)
  rw [playerDayScores]
  refine List.mem_filterMap.mpr ⟨(i, day), ?_, ?_⟩
  · exact List.mk_mem_enum_iff_getElem?.mpr
      (by rw [List.getElem?_eq_getElem hi, hieq])
  · simp only [hlast, Option.map_some']

lemma stat_mem_avgPlayerStats {scores : List (List (String × ℝ))}
    (dA : Bool) {p : String} (hp : p ∈ allPlayersOf scores) :
    mkPlayerStat scores dA p ∈ avgPlayerStats scores dA := by
  have hne := allPlayersOf_pds_ne_nil hp
  rw [avgPlayerStats]
  refine List.mem_filterMap.mpr ⟨p, hp, ?_⟩
  rw [if_neg (by simp [List.isEmpty_iff, hne])]

/-- Under per-day deduplicated input, a player's per-day record length
(the Average branch's `numGames`) equals the raw occurrence count (the
Elo branches' `numGames`). -/
lemma pds_aux (p : String) (ds : List (List (String × ℝ))) :
    ∀ k : ℕ, (∀ day ∈ ds, (day.map Prod.fst).Nodup) →
      ((List.enumFrom k ds).filterMap (fun q =>
        ((q.2.filter (fun o => o.1 == p)).getLast?).map
          (fun o => (q.1, o.2)))).length
      = (ds.flatten.filter (fun o => o.1 == p)).length := by
  induction ds with
  | nil => intro k _; simp
  | cons d rest ih =>
    intro k h
    rw [List.enumFrom_cons, List.filterMap_cons, List.flatten_cons,
      List.filter_append, List.length_append]
    have hd : (d.map Prod.fst).Nodup := h d (by simp)
    have hle : (d.filter (fun o => o.1 == p)).length ≤ 1 := by
      have h1 : (d.filter (fun o => o.1 == p)).length
          = List.countP (fun o => o.1 == p) d :=
        (List.countP_eq_length_filter _ _).symm
      have h2 : List.countP (fun o => o.1 == p) d
          = List.countP (fun x => x == p) (d.map Prod.fst) := by
        rw [List.countP_map]
        rfl
      have h3 : List.countP (fun x => x == p) (d.map Prod.fst)
          = List.count p (d.map Prod.fst) :=
        (List.count_eq_countP _ _).symm
      have h4 : List.count p (d.map Prod.fst) ≤ 1 :=
        List.nodup_iff_count_le_one.mp hd p
      omega
    have hrest := ih (k + 1) (fun day hday => h day (by simp [hday]))
    cases hfil : d.filter (fun o => o.1 == p) with
    | nil =>
      rw [List.getLast?_nil, Option.map_none']
      dsimp only
      rw [hrest]
      simp
    | cons x xs =>
      rw [hfil] at hle
      have hx : xs = [] := by
        simp only [List.length_cons] at hle
        exact List.eq_nil_of_length_eq_zero (by omega)
      subst hx
      rw [List.getLast?_singleton, Option.map_some']
      dsimp only
      rw [List.length_cons, hrest]
      simp [Nat.add_comm]

lemma pds_length_eq {scores : List (List (String × ℝ))} {p : String}
    (h : ∀ day ∈ scores, (day.map Prod.fst).Nodup) :
    (playerDayScores scores p).length = numGamesOf scores p := by
  rw [playerDayScores, numGamesOf,
    show scores.enum = List.enumFrom 0 scores from rfl]
  exact pds_aux p scores 0 h

lemma mkPlayerStat_player (scores : List (List (String × ℝ)))
    (dA : Bool) (p : String) : (mkPlayerStat scores dA p).player = p := rfl

lemma mkPlayerStat_numGames (scores : List (List (String × ℝ)))
    (dA : Bool) (p : String) :
    (mkPlayerStat scores dA p).numGames
      = (playerDayScores scores p).length := by
  simp [mkPlayerStat]

/-- The shape of the Average branch: scored stats filtered by the game
cutoff, sorted ascending by final score, then projected to entries. -/
lemma avgBranch_props (scores : List (List (String × ℝ)))
    (dA bA : Bool) (cutoff : ℕ)
    (hnodup : ∀ day ∈ scores, (day.map Prod.fst).Nodup) :
    (∀ e ∈ (sortByFinalAsc ((averageScored scores dA bA).filter
          (fun st => decide (cutoff ≤ st.stat.numGames)))).map
        (fun st => (⟨st.stat.player, st.stat.numGames, st.finalScore⟩
          : LbEntry)),
      e.player ∈ allPlayersOf scores ∧ cutoff ≤ e.numGames) ∧
      (∀ p ∈ allPlayersOf scores,
        p ∉ ((sortByFinalAsc ((averageScored scores dA bA).filter
            (fun st => decide (cutoff ≤ st.stat.numGames)))).map
          (fun st => (⟨st.stat.player, st.stat.numGames, st.finalScore⟩
            : LbEntry))).map LbEntry.player →
        numGamesOf scores p < cutoff) ∧
      ((sortByFinalAsc ((averageScored scores dA bA).filter
          (fun st => decide (cutoff ≤ st.stat.numGames)))).map
        (fun st => (⟨st.stat.player, st.stat.numGames, st.finalScore⟩
          : LbEntry))).Pairwise (fun a b => a.rating ≤ b.rating) := by
  refine ⟨?_, ?_, ?_⟩
  · intro e he
    obtain ⟨st, hst, rfl⟩ := List.mem_map.mp he
    have hst2 := (sortByFinalAsc_perm _).mem_iff.mp hst
    obtain ⟨hmem, hcut⟩ := List.mem_filter.mp hst2
    have hstat := mem_averageScored_stat hmem
    obtain ⟨p, hp, -, heq⟩ := mem_avgPlayerStats hstat
    refine ⟨?_, by simpa using hcut⟩
    dsimp only
    rw [heq, mkPlayerStat_player]
    exact hp
  · intro p hp hout
    by_contra hc
    push_neg at hc
    have hstat := stat_mem_avgPlayerStats dA hp
    have hcut : cutoff ≤ (mkPlayerStat scores dA p).numGames := by
      rw [mkPlayerStat_numGames, pds_length_eq hnodup]
      omega
    obtain ⟨st, hst, hsteq⟩ := averageScored_covers bA hstat
    apply hout
    refine List.mem_map.mpr ⟨⟨st.stat.player, st.stat.numGames,
      st.finalScore⟩, ?_, by rw [hsteq, mkPlayerStat_player]⟩
    refine List.mem_map.mpr ⟨st, ?_, rfl⟩
    refine (sortByFinalAsc_perm _).mem_iff.mpr ?_
    exact List.mem_filter.mpr ⟨hst, by simp [hsteq, hcut]⟩
  · exact List.pairwise_map.mpr
      ((sortByFinalAsc_sorted _).imp (fun h => h))

/-- C8: for every input whose day groups are deduplicated per player
(the caller contract of the spec) and every configuration,
`calculateLeaderboard` returns only players of the input player universe;
every returned entry's games count meets the cutoff; every input player
missing from the output has fewer games than the cutoff; and the output
is sorted descending by rating under the Elo method and ascending under
the Average method. -/
theorem calculateLeaderboard_cutoff_sorted
    (scores : List (List (String × ℝ))) (opts : LbOptions)
    (hnodup : ∀ day ∈ scores, (day.map Prod.fst).Nodup) :
    (∀ e ∈ calculateLeaderboard scores opts,
        e.player ∈ allPlayersOf scores ∧ opts.gameCutoff ≤ e.numGames) ∧
      (∀ p ∈ allPlayersOf scores,
        p ∉ (calculateLeaderboard scores opts).map LbEntry.player →
          numGamesOf scores p < opts.gameCutoff) ∧
      (opts.statsMethodElo = true →
        (calculateLeaderboard scores opts).Pairwise
          (fun a b => b.rating ≤ a.rating)) ∧
      (opts.statsMethodElo = false →
        (calculateLeaderboard scores opts).Pairwise
          (fun a b => a.rating ≤ b.rating)) := by
  cases hm : opts.statsMethodElo with
  | false =>
    have hlb : calculateLeaderboard scores opts =
        (sortByFinalAsc ((averageScored scores opts.dayAdjustment
            opts.bayesAdjustment).filter
          (fun st => decide (opts.gameCutoff ≤ st.stat.numGames)))).map
        (fun st => (⟨st.stat.player, st.stat.numGames, st.finalScore⟩
          : LbEntry)) := by
      simp only [calculateLeaderboard, hm, Bool.false_eq_true, if_false]
    have h := avgBranch_props scores opts.dayAdjustment
      opts.bayesAdjustment opts.gameCutoff hnodup
    rw [hlb]
    exact ⟨h.1, h.2.1, (fun hcon => by cases hcon), fun _ => h.2.2⟩
  | true =>
    cases hmap : opts.eloMethodMAP with
    | true =>
      have hlb : calculateLeaderboard scores opts =
          sortByRatingDesc (((eloEntries (allPlayersOf scores)
              (fun p => numGamesOf scores p)
              ((calcMapElos (winMatrix scores
                (if opts.xIsSeven then 7 else 6)
                (allPlayersOf scores)) 1e-6).elos))).filter
            (fun e => decide (opts.gameCutoff ≤ e.numGames))) := by
        simp only [calculateLeaderboard, hm, hmap, if_true]
      have h := eloBranch_props (allPlayersOf scores)
        (fun p => numGamesOf scores p)
        ((calcMapElos (winMatrix scores (if opts.xIsSeven then 7 else 6)
          (allPlayersOf scores)) 1e-6).elos) opts.gameCutoff
      rw [hlb]
      exact ⟨h.1, h.2.1, fun _ => h.2.2, (fun hcon => by cases hcon)⟩
    | false =>
      have hlb : calculateLeaderboard scores opts =
          sortByRatingDesc (((eloEntries (allPlayersOf scores)
              (fun p => numGamesOf scores p)
              ((calcEloIterated scores (allPlayersOf scores) opts.eloK
                (if opts.xIsSeven then 7 else 6)).getLastD []))).filter
            (fun e => decide (opts.gameCutoff ≤ e.numGames))) := by
        simp only [calculateLeaderboard, hm, hmap, Bool.false_eq_true,
          if_false, if_true]
      have h := eloBranch_props (allPlayersOf scores)
        (fun p => numGamesOf scores p)
        ((calcEloIterated scores (allPlayersOf scores) opts.eloK
          (if opts.xIsSeven then 7 else 6)).getLastD [])
        opts.gameCutoff
      rw [hlb]
      exact ⟨h.1, h.2.1, fun _ => h.2.2, (fun hcon => by cases hcon)⟩

/-- Elo configuration (Iterated, cutoff 1) for the C8 witness. -/
def opts0 : LbOptions := ⟨false, 1, true, false, 2, true, true⟩

lemma lb_single_eval :
    calculateLeaderboard [[(("A" : String), 3)]] opts0 = [⟨"A", 1, 1000⟩] := by
  have hap : allPlayersOf [[(("A" : String), 3)]] = ["A"] := by
    norm_num [allPlayersOf, uniqueFirst]
  have hng : numGamesOf [[(("A" : String), 3)]] "A" = 1 := by
    norm_num [numGamesOf]
  simp only [calculateLeaderboard, opts0, if_true, Bool.false_eq_true,
    if_false, hap]
  rw [demo_single_eval]
  norm_num [eloEntries, List.enum_cons, hng, sortByRatingDesc,
    List.mergeSort_singleton]

/-- Witness for C8 at a concrete input: one player, one day, Iterated
Elo, cutoff 1; the single output entry's player is in the universe, its
games count meets the cutoff, and the one-element output is (trivially)
sorted descending. -/
theorem calculateLeaderboard_cutoff_sorted_witness :
    ((⟨"A", 1, 1000⟩ : LbEntry).player
        ∈ allPlayersOf [[(("A" : String), 3)]] ∧
      opts0.gameCutoff ≤ (⟨"A", 1, 1000⟩ : LbEntry).numGames) ∧
      (calculateLeaderboard [[(("A" : String), 3)]] opts0).Pairwise
        (fun a b => b.rating ≤ a.rating) := by
  have h := calculateLeaderboard_cutoff_sorted [[(("A" : String), 3)]]
    opts0 (by
      intro day hday
      simp only [List.mem_singleton] at hday
      subst hday
      simp)
  exact ⟨h.1 ⟨"A", 1, 1000⟩ (by rw [lb_single_eval]; simp), h.2.2.1 rfl⟩

end Wordlebot

end
